import Mathlib

/-!
Verification of the circuit-construction logic of the Grover demo notebook
(`grover_gaps.ipynb`): register allocation, bit encoding/decoding, the Grover
iteration assembler, the bitstring oracle, and the Fourier-space multiplier
`PhiMultiply`.  Circuits are embedded as ordered lists of gate instructions;
Python loops that append to a circuit become folds over index ranges.
-/

namespace GroverGaps

/-- A gate instruction.  Qubits are integer indices in a flat address space.
The phase of a controlled-phase gate is recorded exactly, as the rational
`angle / (2*pi)` (the source computes `angle = 2*np.pi / 2.0**e`, so the
ratio is the exact dyadic rational `2^(-e)`). -/
inductive Instruction where
  | gateH (q : ℕ)
  | gateX (q : ℕ)
  | ccp (c1 c2 t : ℕ) (phaseOverTwoPi : ℚ)
  | mcz (qs : List ℕ)
  | phaseFlipExceptZero (qs : List ℕ)
  | phaseFlipAllZero (qs : List ℕ)
  | qft (qs : List ℕ)
  | invqft (qs : List ℕ)
  | amplitude (bits : List ℕ) (slot : ℕ)
  | measure (q : ℕ)
  deriving DecidableEq

/-- A circuit is an ordered, append-only list of instructions. -/
abbrev Circuit := List Instruction

/-- `for i in range(n): circ.append(f(i))` — a Python counting loop that
appends the block `f i` to the circuit built so far. -/
def forLoop (n : ℕ) (f : ℕ → Circuit) : Circuit :=
  (List.range n).foldl (fun acc i => acc ++ f i) []

/-- `for k in range(a, b): circ.append(f(k))` — a Python loop over `[a, b)`. -/
def forLoopFrom (a b : ℕ) (f : ℕ → Circuit) : Circuit :=
  (List.range' a (b - a)).foldl (fun acc k => acc ++ f k) []

/-! ### Bit utilities

`factorize` encodes the target integer as
`Nj = [int(b) for b in bin(N)[2:][::-1]]`: the Python binary literal of `N`
(most significant digit first, no leading zeros, and the single digit `0`
for `N = 0`), reversed to least-significant-bit-first order. -/

/-- Digits of `bin(n)[2:]` for `n ≥ 1` (most significant first); `[]` for `0`. -/
def binRec (n : ℕ) : List ℕ :=
  if n = 0 then [] else binRec (n / 2) ++ [n % 2]
termination_by n
decreasing_by exact Nat.div_lt_self (Nat.pos_of_ne_zero (by assumption)) one_lt_two

/-- `bin(N)[2:]` as a digit list: `bin(0)` is `"0b0"`, so `N = 0` gives `[0]`. -/
def bin (N : ℕ) : List ℕ :=
  if N = 0 then [0] else binRec N

/-- `Nj = [int(b) for b in bin(N)[2:][::-1]]` — binary digits of `N`,
least significant first (source line in `factorize`). -/
def Nj (N : ℕ) : List ℕ :=
  (bin N).reverse

/-- The decode path of the result-interpretation cell:
`int(bitarray.to01(), 2)` reads the bit list in the order given, treating the
FIRST entry as the MOST significant digit. -/
def decodeMSB (l : List ℕ) : ℕ :=
  l.foldl (fun acc b => 2 * acc + b) 0

/-! ### Register allocation (`factorize`, with `nz = nx + ny + 1`) -/

/-- `X = list(range(0, nx))` in `factorize`. -/
def Xreg (nx : ℕ) : List ℕ := List.range' 0 nx

/-- `Y = list(range(nx, nx + ny))` in `factorize`. -/
def Yreg (nx ny : ℕ) : List ℕ := List.range' nx ny

/-- `Z = list(range(nx + ny, nx + ny + nz))` in `factorize`,
where `nz = nx + ny + 1`. -/
def Zreg (nx ny : ℕ) : List ℕ := List.range' (nx + ny) (nx + ny + 1)

/-! ### Circuit builders -/

/-- Qubit indices referenced by an instruction. -/
def instQubits : Instruction → List ℕ
  | .gateH q => [q]
  | .gateX q => [q]
  | .ccp c1 c2 t _ => [c1, c2, t]
  | .mcz qs => qs
  | .phaseFlipExceptZero qs => qs
  | .phaseFlipAllZero qs => qs
  | .qft qs => qs
  | .invqft qs => qs
  | .amplitude _ _ => []
  | .measure q => [q]

/-- Modelled from the spec: the external library call
`oracle_circ.num_qubits()` — one more than the largest qubit index referenced
by any instruction of the circuit (`0` for a circuit referencing none). -/
def numQubits (c : Circuit) : ℕ :=
  (c.flatMap instQubits).foldl (fun a q => max a (q + 1)) 0

/-- Modelled from the spec: the diffusion operator on the given qubits —
Hadamard on all of them, a conditional phase flip of −1 on every state except
the all-zero state, then Hadamard on all of them again (spec 4.3). -/
def diffusionOn (qs : List ℕ) : Circuit :=
  qs.map Instruction.gateH ++ [Instruction.phaseFlipExceptZero qs]
    ++ qs.map Instruction.gateH

/-- Diffusion over qubits `0, …, n-1`. -/
def diffusion (n : ℕ) : Circuit := diffusionOn (List.range n)

/-- The per-iteration callback factory `amplitude_callback(bitstring)` of the
source: iteration `i` contributes `circ.push(Amplitude(bitstring), i)`. -/
def amplitude_callback (bitstring : List ℕ) : ℕ → Circuit :=
  fun i => [Instruction.amplitude bitstring i]

/-- The `grover` builder.  The iteration loop and the conditional
`circ.append(callback(i))` are from the source; the two TODO appends inside
the loop are Modelled from the spec: spec 4.4's contract makes each iteration
`[callback(i) if provided] → [oracle] → [diffusion]` and makes the returned
circuit exactly the concatenation of those blocks. -/
def grover (iterations : ℕ) (oracleCirc : Circuit)
    (callback : Option (ℕ → Circuit)) : Circuit :=
  let nq := numQubits oracleCirc
  forLoop iterations (fun i =>
    (match callback with
     | some cb => cb i
     | none => []) ++ oracleCirc ++ diffusion nq)

/-- The list of X gates of the bitstring oracle as a comprehension: one
`gateX q` for exactly those positions `q` whose target bit is 0. -/
def flipZeros (b : List ℕ) : Circuit :=
  (List.range b.length).filterMap
    (fun q => if b.getD q 0 = 0 then some (Instruction.gateX q) else none)

/-- The `oracle` builder.  The shell (`nq = len(bitstring)`, empty circuit,
three steps) is from the source; the three TODO bodies are Modelled from the
spec (4.2): X on every qubit whose target bit is 0, one multicontrol-Z across
all `nq` qubits, then the same X gates again to uncompute. -/
def oracle (b : List ℕ) : Circuit :=
  forLoop b.length (fun q => if b.getD q 0 = 0 then [Instruction.gateX q] else [])
    ++ [Instruction.mcz (List.range b.length)]
    ++ forLoop b.length (fun q => if b.getD q 0 = 0 then [Instruction.gateX q] else [])

/-! ### Fourier-space multiplier -/

/-- The rotation angle of the `PhiMultiply` triple `(j, i, k)`, recorded
exactly as the ratio `angle / (2π)`: the source computes
`angle = 2*np.pi / 2.0**(k - j - i + 1)`, so the ratio is `2^-(k-j-i+1)`. -/
def angleOverTwoPi (j i k : ℕ) : ℚ :=
  (2 : ℚ) ^ (-((k : ℤ) - (j : ℤ) - (i : ℤ) + 1))

/-- The source guard `angle % (2*np.pi) != 0` skips a triple exactly when its
angle is an integer multiple of `2π`.  Since the angle is `2π · q` with
`q = angleOverTwoPi > 0`, that happens iff `q` is an integer, i.e. iff its
denominator is 1 (angle arithmetic is modelled exactly, not in floating
point). -/
def angleIsMultipleOfTwoPi (j i k : ℕ) : Bool :=
  (angleOverTwoPi j i k).den == 1

/-- `PhiMultiply(X, Y, Z)` from the source: the triple loop
`for j in range(nx): for i in range(ny): for k in range(i+j, nz):` with the
angle guard; the guarded TODO body is Modelled from the spec — a phase gate
on `Z[k]` controlled by `X[j]` and `Y[i]` with angle `2π / 2^(k−j−i+1)`. -/
def PhiMultiply (X Y Z : List ℕ) : Circuit :=
  forLoop X.length (fun j =>
    forLoop Y.length (fun i =>
      forLoopFrom (i + j) Z.length (fun k =>
        if angleIsMultipleOfTwoPi j i k then []
        else [Instruction.ccp (X.getD j 0) (Y.getD i 0) (Z.getD k 0)
                (angleOverTwoPi j i k)])))

/-- The same triple loop with the angle guard removed: every triple in the
loop range emits its gate. -/
def PhiMultiplyAll (X Y Z : List ℕ) : Circuit :=
  forLoop X.length (fun j =>
    forLoop Y.length (fun i =>
      forLoopFrom (i + j) Z.length (fun k =>
        [Instruction.ccp (X.getD j 0) (Y.getD i 0) (Z.getD k 0)
           (angleOverTwoPi j i k)])))

/-- `Multiply(X, Y, Z)` — the shell is from the source; the three TODO steps
are Modelled from the spec and the source's own comments: QFT on Z, the
multiplication network, then the inverse QFT. -/
def Multiply (X Y Z : List ℕ) : Circuit :=
  [Instruction.qft Z] ++ PhiMultiply X Y Z ++ [Instruction.invqft Z]

/-- Gate-level inverse: H, X and the conditional phase flips are self-inverse,
a controlled phase inverts its angle, and QFT/inverse-QFT swap. -/
def instInverse : Instruction → Instruction
  | .ccp c1 c2 t a => .ccp c1 c2 t (-a)
  | .qft qs => .invqft qs
  | .invqft qs => .qft qs
  | inst => inst

/-- Modelled from the spec: the exact inverse of a circuit — the gate-level
inverses in reverse order (spec 4.5 requires stages (a) and (c) to be exact
inverses). -/
def inverseCirc (c : Circuit) : Circuit :=
  (c.map instInverse).reverse

/-! ### Factoring circuit assembler -/

/-- Modelled from the spec: the TODO `Encode the bitstring in Z` of
`factorize` — an X gate on `Z[j]` for every 1-bit `Nj[j]` of the encoding.
The `j`-th entry of `Zreg` is `nx + ny + j`; for `j ≥ nz` (possible when
`N ≥ 2^nz`, cf. C10) the same index arithmetic extrapolates past the
register, there being no length check in the source. -/
def encodeZ (nx ny N : ℕ) : Circuit :=
  forLoop (Nj N).length
    (fun j => if (Nj N).getD j 0 = 1 then [Instruction.gateX (nx + ny + j)] else [])

/-- `factorize(N, K, nx, ny)` — register preparation, `Nj`, the `K`-step
Grover loop and the final return are from the source; the TODO bodies
(superposition on X and Y, encoding of N into Z, oracle =
inverse-multiply / phase-flip-on-zero / multiply, diffusion on X,Y, and the
final measurement of X) are Modelled from the spec (4.5, 4.6).  Note the
source contains no validation of `nx`, `ny` or `N`. -/
def factorize (N K nx ny : ℕ) : Circuit :=
  let X := Xreg nx
  let Y := Yreg nx ny
  let Z := Zreg nx ny
  (X ++ Y).map Instruction.gateH
    ++ encodeZ nx ny N
    ++ forLoop K (fun _ =>
        inverseCirc (Multiply X Y Z)
          ++ [Instruction.phaseFlipAllZero Z]
          ++ Multiply X Y Z
          ++ diffusionOn (X ++ Y))
    ++ X.map Instruction.measure

/-- The triples `(j, i, k)` visited by the `PhiMultiply` loops, in loop
order. -/
def PhiTriples (nx ny nz : ℕ) : List (ℕ × ℕ × ℕ) :=
  (List.range nx).flatMap fun j =>
    (List.range ny).flatMap fun i =>
      (List.range' (i + j) (nz - (i + j))).map fun k => (j, i, k)

/-- The gate emitted for a `PhiMultiply` triple. -/
def gateOf (X Y Z : List ℕ) (t : ℕ × ℕ × ℕ) : Instruction :=
  Instruction.ccp (X.getD t.1 0) (Y.getD t.2.1 0) (Z.getD t.2.2 0)
    (angleOverTwoPi t.1 t.2.1 t.2.2)

/-! ### Loop lemmas -/

theorem foldl_append_eq_flatMap (l : List ℕ) (f : ℕ → Circuit) (init : Circuit) :
    l.foldl (fun acc i => acc ++ f i) init = init ++ l.flatMap f := by
  induction l generalizing init with
  | nil => simp
  | cons x xs ih => simp [List.foldl_cons, ih, List.flatMap_cons]

theorem forLoop_eq_flatMap (n : ℕ) (f : ℕ → Circuit) :
    forLoop n f = (List.range n).flatMap f := by
  simp [forLoop, foldl_append_eq_flatMap]

theorem forLoopFrom_eq_flatMap (a b : ℕ) (f : ℕ → Circuit) :
    forLoopFrom a b f = (List.range' a (b - a)).flatMap f := by
  simp [forLoopFrom, foldl_append_eq_flatMap]

theorem flatMap_singleton_eq_map {α β : Type} (l : List α) (f : α → β) :
    (l.flatMap fun a => [f a]) = l.map f := by
  induction l with
  | nil => rfl
  | cons x xs ih => simp [ih]

theorem flatMap_if_singleton (l : List ℕ) (p : ℕ → Prop) [DecidablePred p]
    (f : ℕ → Instruction) :
    (l.flatMap fun a => if p a then [f a] else []) =
      l.filterMap fun a => if p a then some (f a) else none := by
  induction l with
  | nil => simp
  | cons x xs ih => by_cases h : p x <;> simp [h, ih]

/-! ### Structure of the binary encoding -/

theorem binRec_zero : binRec 0 = [] := by
  rw [binRec]
  simp

theorem binRec_of_ne_zero {n : ℕ} (h : n ≠ 0) :
    binRec n = binRec (n / 2) ++ [n % 2] := by
  rw [binRec]
  simp [h]

theorem Nj_of_ne_zero {n : ℕ} (h : n ≠ 0) :
    Nj n = n % 2 :: (binRec (n / 2)).reverse := by
  unfold Nj bin
  rw [if_neg h, binRec_of_ne_zero h]
  simp

theorem binRec_length : ∀ n : ℕ, n ≠ 0 → (binRec n).length = Nat.log2 n + 1 := by
  intro n
  induction n using Nat.strong_induction_on with
  | _ n ih =>
    intro h
    rw [binRec_of_ne_zero h, Nat.log2]
    rcases Nat.lt_or_ge n 2 with h2 | h2
    · have hn1 : n = 1 := by omega
      subst hn1
      simp [binRec_zero]
    · have hpos : 0 < n / 2 := Nat.lt_of_lt_of_le Nat.zero_lt_one
        ((Nat.one_le_div_iff Nat.zero_lt_two).mpr h2)
      rw [List.length_append]
      rw [ih (n / 2) (Nat.div_lt_self (by omega) one_lt_two) (by omega)]
      simp [h2]

theorem binRec_head : ∀ n : ℕ, n ≠ 0 → (binRec n).head? = some 1 := by
  intro n
  induction n using Nat.strong_induction_on with
  | _ n ih =>
    intro h
    rw [binRec_of_ne_zero h]
    by_cases hd : n / 2 = 0
    · have hn1 : n = 1 := by omega
      subst hn1
      simp [binRec_zero]
    · rw [List.head?_append, ih (n / 2) (Nat.div_lt_self (by omega) one_lt_two) hd]
      simp

theorem binRec_reverse_getD :
    ∀ (b n : ℕ), b < (binRec n).length →
      ((binRec n).reverse).getD b 0 = n / 2 ^ b % 2 := by
  intro b
  induction b with
  | zero =>
    intro n hb
    have h : n ≠ 0 := by
      intro h0
      rw [h0, binRec_zero] at hb
      simp at hb
    rw [binRec_of_ne_zero h]
    simp
  | succ b ihb =>
    intro n hb
    have h : n ≠ 0 := by
      intro h0
      rw [h0, binRec_zero] at hb
      simp at hb
    have hlen : b < (binRec (n / 2)).length := by
      rw [binRec_of_ne_zero h, List.length_append] at hb
      simpa using hb
    rw [binRec_of_ne_zero h]
    simp only [List.reverse_append, List.reverse_singleton, List.singleton_append,
      List.getD_cons_succ]
    rw [ihb (n / 2) hlen, Nat.div_div_eq_div_mul]
    congr 1
    rw [pow_succ, Nat.mul_comm]

theorem Nj_eq_of_ne_zero {n : ℕ} (h : n ≠ 0) : Nj n = (binRec n).reverse := by
  unfold Nj bin
  rw [if_neg h]

/-- **C7.** The bit sequence `Nj` used by `factorize` to encode `N` is the
least-significant-bit-first binary expansion of `N`: for every position `b`
inside the list, the entry equals `(N >> b) mod 2`. -/
theorem claim_C7_Nj_lsb_first (N b : ℕ) (hb : b < (Nj N).length) :
    (Nj N).getD b 0 = N / 2 ^ b % 2 := by
  by_cases h : N = 0
  · subst h
    have : b = 0 := by
      simpa [Nj, bin, binRec_zero] using hb
    subst this
    simp [Nj, bin, binRec_zero]
  · rw [Nj_eq_of_ne_zero h] at hb ⊢
    exact binRec_reverse_getD b N (by simpa using hb)

/-- Witness for C7 at `N = 6`, `b = 1`: the encoding of 6 is `[0, 1, 1]` and
its bit at position 1 is `(6 >> 1) mod 2 = 1`. -/
theorem claim_C7_Nj_lsb_first_witness :
    1 < (Nj 6).length ∧ (Nj 6).getD 1 0 = 6 / 2 ^ 1 % 2 :=
  ⟨by simp [Nj, bin, binRec], claim_C7_Nj_lsb_first 6 1 (by simp [Nj, bin, binRec])⟩

/-- **C10.** For `N ≥ 1` the encoded bit list `Nj` has length exactly
`⌊log₂ N⌋ + 1`, its last (most significant) entry is 1 (it is never
zero-padded to the register length), and whenever `N ≥ 2^nz` the encoding is
strictly longer than a Z register of size `nz` — `factorize` contains no
check preventing this. -/
theorem claim_C10_Nj_length (N : ℕ) (hN : 1 ≤ N) :
    (Nj N).length = Nat.log2 N + 1 ∧
    (Nj N).getLast? = some 1 ∧
    ∀ nz : ℕ, 2 ^ nz ≤ N → nz < (Nj N).length := by
  have h : N ≠ 0 := by omega
  refine ⟨?_, ?_, ?_⟩
  · rw [Nj_eq_of_ne_zero h]
    simpa using binRec_length N h
  · rw [Nj_eq_of_ne_zero h, List.getLast?_reverse]
    exact binRec_head N h
  · intro nz hnz
    rw [Nj_eq_of_ne_zero h]
    have : nz ≤ Nat.log2 N := (Nat.le_log2 h).mpr hnz
    have hlen := binRec_length N h
    simp only [List.length_reverse]
    omega

/-- Witness for C10 at `N = 5` (and register size `nz = 2`):
`Nj 5 = [1, 0, 1]` has length `⌊log₂ 5⌋ + 1 = 3`, ends in 1, and since
`2^2 ≤ 5` the encoding is longer than a Z register of 2 qubits. -/
theorem claim_C10_Nj_length_witness :
    (Nj 5).length = Nat.log2 5 + 1 ∧ (Nj 5).getLast? = some 1 ∧
      2 < (Nj 5).length :=
  ⟨(claim_C10_Nj_length 5 (by norm_num)).1,
   (claim_C10_Nj_length 5 (by norm_num)).2.1,
   (claim_C10_Nj_length 5 (by norm_num)).2.2 2 (by norm_num)⟩

/-- **C1 (failing input).** The code's encode path (`Nj`, least significant
bit first) composed with the code's decode path (`int(bitarray.to01(), 2)`,
which reads the first entry as the most significant digit) does not
round-trip: `N = 2` encodes to `[0, 1]`, which decodes to `1`, not `2`. -/
theorem claim_C1_roundtrip_fails_at_two :
    Nj 2 = [0, 1] ∧ decodeMSB (Nj 2) = 1 := by
  constructor
  · simp [Nj, bin, binRec]
  · simp [decodeMSB, Nj, bin, binRec]

/-! ### Register allocation -/

/-- **C2.** For `nx, ny ≥ 1` the three register index lists produced by
`factorize` are contiguous order-preserving blocks that concatenate to
exactly the interval `[0, nx+ny+nx+ny+1)` (no gaps, no overlaps), and they
are pairwise disjoint. -/
theorem claim_C2_register_allocation (nx ny : ℕ) (_hx : 1 ≤ nx) (_hy : 1 ≤ ny) :
    Xreg nx ++ Yreg nx ny ++ Zreg nx ny = List.range (nx + ny + nx + ny + 1) ∧
    (∀ q, ¬(q ∈ Xreg nx ∧ q ∈ Yreg nx ny)) ∧
    (∀ q, ¬(q ∈ Xreg nx ∧ q ∈ Zreg nx ny)) ∧
    (∀ q, ¬(q ∈ Yreg nx ny ∧ q ∈ Zreg nx ny)) := by
  refine ⟨?_, ?_, ?_, ?_⟩
  · have h1 := List.range'_append 0 nx ny 1
    have h2 := List.range'_append 0 (nx + ny) (nx + ny + 1) 1
    simp only [one_mul, Nat.zero_add] at h1 h2
    unfold Xreg Yreg Zreg
    rw [h1, Nat.add_comm ny nx, h2, List.range_eq_range']
    congr 1
    omega
  · intro q ⟨h1, h2⟩
    rw [Xreg, List.mem_range'_1] at h1
    rw [Yreg, List.mem_range'_1] at h2
    omega
  · intro q ⟨h1, h2⟩
    rw [Xreg, List.mem_range'_1] at h1
    rw [Zreg, List.mem_range'_1] at h2
    omega
  · intro q ⟨h1, h2⟩
    rw [Yreg, List.mem_range'_1] at h1
    rw [Zreg, List.mem_range'_1] at h2
    omega

/-- Witness for C2 at `nx = ny = 1`: `X = [0]`, `Y = [1]`, `Z = [2, 3, 4]`
partition `[0, 5)`. -/
theorem claim_C2_register_allocation_witness :
    (1 : ℕ) ≤ 1 ∧
    (Xreg 1 ++ Yreg 1 1 ++ Zreg 1 1 = List.range (1 + 1 + 1 + 1 + 1) ∧
     (∀ q, ¬(q ∈ Xreg 1 ∧ q ∈ Yreg 1 1)) ∧
     (∀ q, ¬(q ∈ Xreg 1 ∧ q ∈ Zreg 1 1)) ∧
     (∀ q, ¬(q ∈ Yreg 1 1 ∧ q ∈ Zreg 1 1))) :=
  ⟨le_refl 1, claim_C2_register_allocation 1 1 (le_refl 1) (le_refl 1)⟩

/-! ### Oracle, Grover assembler, factorize -/

/-- **C5.** The oracle circuit for a target bitstring is: the X gates on
exactly those qubits whose target bit is 0, then one multicontrol-Z across
all `n` qubits, then the same X gates again, in that order. -/
theorem claim_C5_oracle_structure (b : List ℕ) :
    oracle b = flipZeros b ++ [Instruction.mcz (List.range b.length)] ++ flipZeros b ∧
    ∀ q : ℕ, Instruction.gateX q ∈ flipZeros b ↔ q < b.length ∧ b.getD q 0 = 0 := by
  constructor
  · unfold oracle flipZeros
    rw [forLoop_eq_flatMap, flatMap_if_singleton]
  · intro q
    constructor
    · intro h
      simp only [flipZeros, List.mem_filterMap, List.mem_range] at h
      obtain ⟨a, ha, heq⟩ := h
      by_cases hc : b.getD a 0 = 0
      · rw [if_pos hc] at heq
        have ha' : a = q := by
          injection heq with h'
          injection h'
        subst ha'
        exact ⟨ha, hc⟩
      · rw [if_neg hc] at heq
        exact absurd heq (by simp)
    · rintro ⟨hq, hc⟩
      simp only [flipZeros, List.mem_filterMap, List.mem_range]
      exact ⟨q, hq, by rw [if_pos hc]⟩

/-- **C4.** For every iteration count, oracle circuit and optional callback,
`grover` returns exactly the ordered concatenation, over the iteration
indices `i < iterations`, of `callback i` (when provided), then the oracle
instructions, then the diffusion-operator instructions. -/
theorem claim_C4_grover_concatenation (iterations : ℕ) (oracleCirc : Circuit)
    (cb : ℕ → Circuit) :
    grover iterations oracleCirc (some cb) =
      ((List.range iterations).map
        (fun i => cb i ++ oracleCirc ++ diffusion (numQubits oracleCirc))).flatten ∧
    grover iterations oracleCirc none =
      ((List.range iterations).map
        (fun _ => oracleCirc ++ diffusion (numQubits oracleCirc))).flatten := by
  constructor <;> simp [grover, forLoop_eq_flatMap, List.flatMap_def]

/-- **C3 (failing input).** `factorize` performs no size validation: called
with the invalid size `nx = 0` (here `N = 3`, `K = 1`, `ny = 2`) it does not
fail but returns a complete 14-instruction circuit. -/
theorem claim_C3_no_validation_returns_circuit :
    factorize 3 1 0 2 =
      [Instruction.gateH 0, Instruction.gateH 1,
       Instruction.gateX 2, Instruction.gateX 3,
       Instruction.qft [2, 3, 4], Instruction.invqft [2, 3, 4],
       Instruction.phaseFlipAllZero [2, 3, 4],
       Instruction.qft [2, 3, 4], Instruction.invqft [2, 3, 4],
       Instruction.gateH 0, Instruction.gateH 1,
       Instruction.phaseFlipExceptZero [0, 1],
       Instruction.gateH 0, Instruction.gateH 1] := by
  simp [factorize, Xreg, Yreg, Zreg, encodeZ, Multiply, PhiMultiply, inverseCirc,
    instInverse, diffusionOn, forLoop, forLoopFrom, Nj, bin, binRec, List.range',
    List.range_succ, List.range_zero]

/-! ### PhiMultiply: the angle guard and the emitted gate network -/

theorem angleOverTwoPi_pos (j i k : ℕ) : 0 < angleOverTwoPi j i k :=
  zpow_pos (by norm_num) _

theorem angleOverTwoPi_le_half {j i k : ℕ} (h : i + j ≤ k) :
    angleOverTwoPi j i k ≤ 1 / 2 := by
  unfold angleOverTwoPi
  have h1 : (1 : ℤ) ≤ (k : ℤ) - (j : ℤ) - (i : ℤ) + 1 := by omega
  obtain ⟨m, hm⟩ : ∃ m : ℕ, (k : ℤ) - (j : ℤ) - (i : ℤ) + 1 = (m : ℤ) :=
    ⟨((k : ℤ) - (j : ℤ) - (i : ℤ) + 1).toNat, (Int.toNat_of_nonneg (by omega)).symm⟩
  have hm1 : 1 ≤ m := by omega
  rw [hm, zpow_neg, zpow_natCast]
  have h2 : (2 : ℚ) ≤ 2 ^ m := by
    calc (2 : ℚ) = 2 ^ 1 := (pow_one 2).symm
    _ ≤ 2 ^ m := pow_le_pow_right₀ one_le_two hm1
  calc ((2 : ℚ) ^ m)⁻¹ ≤ (2 : ℚ)⁻¹ := inv_anti₀ (by norm_num) h2
  _ = 1 / 2 := by norm_num

theorem angleIsMultipleOfTwoPi_false {j i k : ℕ} (h : i + j ≤ k) :
    angleIsMultipleOfTwoPi j i k = false := by
  unfold angleIsMultipleOfTwoPi
  rw [beq_eq_false_iff_ne]
  intro hden
  have hq := (Rat.den_eq_one_iff _).mp hden
  have h0 : 0 < angleOverTwoPi j i k := angleOverTwoPi_pos j i k
  have h1 : angleOverTwoPi j i k < 1 :=
    lt_of_le_of_lt (angleOverTwoPi_le_half h) (by norm_num)
  rw [← hq] at h0 h1
  have h0' : (0 : ℤ) < (angleOverTwoPi j i k).num := by exact_mod_cast h0
  have h1' : (angleOverTwoPi j i k).num < 1 := by exact_mod_cast h1
  omega

theorem PhiMultiply_eq_all (X Y Z : List ℕ) :
    PhiMultiply X Y Z = PhiMultiplyAll X Y Z := by
  unfold PhiMultiply PhiMultiplyAll
  rw [forLoop_eq_flatMap, forLoop_eq_flatMap]
  apply List.flatMap_congr
  intro j _
  rw [forLoop_eq_flatMap, forLoop_eq_flatMap]
  apply List.flatMap_congr
  intro i _
  rw [forLoopFrom_eq_flatMap, forLoopFrom_eq_flatMap]
  apply List.flatMap_congr
  intro k hk
  rw [List.mem_range'_1] at hk
  rw [angleIsMultipleOfTwoPi_false hk.1]
  simp

theorem PhiMultiplyAll_eq_map (X Y Z : List ℕ) :
    PhiMultiplyAll X Y Z =
      (PhiTriples X.length Y.length Z.length).map (gateOf X Y Z) := by
  unfold PhiMultiplyAll PhiTriples
  rw [forLoop_eq_flatMap, List.map_flatMap]
  apply List.flatMap_congr
  intro j _
  rw [forLoop_eq_flatMap, List.map_flatMap]
  apply List.flatMap_congr
  intro i _
  rw [forLoopFrom_eq_flatMap, List.map_map, flatMap_singleton_eq_map]
  rfl

theorem mem_PhiTriples {nx ny nz j i k : ℕ} :
    (j, i, k) ∈ PhiTriples nx ny nz ↔ j < nx ∧ i < ny ∧ i + j ≤ k ∧ k < nz := by
  unfold PhiTriples
  simp only [List.mem_flatMap, List.mem_map, List.mem_range, List.mem_range'_1,
    Prod.mk.injEq]
  constructor
  · rintro ⟨j', hj', i', hi', k', ⟨hk1, hk2⟩, rfl, rfl, rfl⟩
    exact ⟨hj', hi', hk1, by omega⟩
  · rintro ⟨hj, hi, hk1, hk2⟩
    exact ⟨j, hj, i, hi, k, ⟨hk1, by omega⟩, rfl, rfl, rfl⟩

theorem PhiTriples_nodup (nx ny nz : ℕ) : (PhiTriples nx ny nz).Nodup := by
  unfold PhiTriples
  rw [List.nodup_flatMap]
  constructor
  · intro j _
    rw [List.nodup_flatMap]
    constructor
    · intro i _
      apply List.Nodup.map
      · intro a b hab
        simpa using hab
      · exact List.nodup_range' _ _
    · refine (List.pairwise_lt_range ny).imp ?_
      intro i1 i2 h12 x hx1 hx2
      simp only [List.mem_map] at hx1 hx2
      obtain ⟨k1, _, rfl⟩ := hx1
      obtain ⟨k2, _, heq⟩ := hx2
      have : i2 = i1 := by
        simpa using congrArg (fun t : ℕ × ℕ × ℕ => t.2.1) heq
      omega
  · refine (List.pairwise_lt_range nx).imp ?_
    intro j1 j2 h12 x hx1 hx2
    simp only [List.mem_flatMap, List.mem_map] at hx1 hx2
    obtain ⟨i1, _, k1, _, rfl⟩ := hx1
    obtain ⟨i2, _, k2, _, heq⟩ := hx2
    have : j2 = j1 := by
      simpa using congrArg (fun t : ℕ × ℕ × ℕ => t.1) heq
    omega

theorem getD_inj {l : List ℕ} (hl : l.Nodup) {a b : ℕ} (ha : a < l.length)
    (hb : b < l.length) (h : l.getD a 0 = l.getD b 0) : a = b := by
  rw [List.getD_eq_getElem l 0 ha, List.getD_eq_getElem l 0 hb] at h
  have h' : l.get ⟨a, ha⟩ = l.get ⟨b, hb⟩ := by
    simpa using h
  have := List.nodup_iff_injective_get.mp hl h'
  simpa using this

/-- **C6.** For registers with distinct qubit indices, the circuit built by
`PhiMultiply` contains exactly one doubly-controlled phase gate for each
triple `(j, i, k)` with `j < nx`, `i < ny`, `i + j ≤ k < nz` — targeting
`Z[k]`, controlled by `X[j]` and `Y[i]`, with angle `2π / 2^(k−j−i+1)` —
except that the triple is skipped when that angle is an exact multiple of
`2π`. -/
theorem claim_C6_PhiMultiply_gates (X Y Z : List ℕ)
    (hX : X.Nodup) (hY : Y.Nodup) (hZ : Z.Nodup)
    (j i k : ℕ) (hj : j < X.length) (hi : i < Y.length)
    (hk1 : i + j ≤ k) (hk2 : k < Z.length) :
    List.count
      (Instruction.ccp (X.getD j 0) (Y.getD i 0) (Z.getD k 0) (angleOverTwoPi j i k))
      (PhiMultiply X Y Z) =
      if angleIsMultipleOfTwoPi j i k then 0 else 1 := by
  rw [angleIsMultipleOfTwoPi_false hk1]
  simp only [Bool.false_eq_true, if_false]
  rw [PhiMultiply_eq_all, PhiMultiplyAll_eq_map]
  have hmem : (j, i, k) ∈ PhiTriples X.length Y.length Z.length :=
    mem_PhiTriples.mpr ⟨hj, hi, hk1, hk2⟩
  have hnd : ((PhiTriples X.length Y.length Z.length).map (gateOf X Y Z)).Nodup := by
    apply List.Nodup.map_on ?_ (PhiTriples_nodup _ _ _)
    intro t1 ht1 t2 ht2 heq
    obtain ⟨j1, i1, k1⟩ := t1
    obtain ⟨j2, i2, k2⟩ := t2
    have h1 := mem_PhiTriples.mp ht1
    have h2 := mem_PhiTriples.mp ht2
    unfold gateOf at heq
    injection heq with e1 e2 e3 e4
    have hj12 : j1 = j2 := getD_inj hX h1.1 h2.1 e1
    have hi12 : i1 = i2 := getD_inj hY h1.2.1 h2.2.1 e2
    have hk12 : k1 = k2 := getD_inj hZ h1.2.2.2 h2.2.2.2 e3
    simp [hj12, hi12, hk12]
  exact List.count_eq_one_of_mem hnd (List.mem_map_of_mem _ hmem)

/-- Witness for C6: in `PhiMultiply [0] [1] [2]` the triple `(0,0,0)` emits
exactly one gate `ccp 0 1 2` with angle `2π/2`. -/
theorem claim_C6_PhiMultiply_gates_witness :
    ([0] : List ℕ).Nodup ∧ (0 : ℕ) < 1 ∧ (0 : ℕ) + 0 ≤ 0 ∧
    List.count (Instruction.ccp 0 1 2 (angleOverTwoPi 0 0 0)) (PhiMultiply [0] [1] [2]) =
      if angleIsMultipleOfTwoPi 0 0 0 then 0 else 1 :=
  ⟨by decide, by decide, by decide,
   claim_C6_PhiMultiply_gates [0] [1] [2] (by decide) (by decide) (by decide)
     0 0 0 (by decide) (by decide) (by decide) (by decide)⟩

/-- **C9.** For every triple in the loop range (`i + j ≤ k`), the exponent
`k − j − i + 1` is at least 1, so the recorded ratio `angle/(2π)` lies in
`(0, 1/2]` (the angle lies in `(0, π]`) and is never an exact multiple of
`2π`; the skip branch of the guard is therefore unreachable and `PhiMultiply`
coincides with the guard-free loop that emits every triple. -/
theorem claim_C9_guard_always_true (X Y Z : List ℕ) (j i k : ℕ) (hk : i + j ≤ k) :
    1 ≤ (k : ℤ) - (j : ℤ) - (i : ℤ) + 1 ∧
    0 < angleOverTwoPi j i k ∧ angleOverTwoPi j i k ≤ 1 / 2 ∧
    angleIsMultipleOfTwoPi j i k = false ∧
    PhiMultiply X Y Z = PhiMultiplyAll X Y Z :=
  ⟨by omega, angleOverTwoPi_pos j i k, angleOverTwoPi_le_half hk,
   angleIsMultipleOfTwoPi_false hk, PhiMultiply_eq_all X Y Z⟩

/-- Witness for C9 at the triple `(0, 0, 0)` and empty registers. -/
theorem claim_C9_guard_always_true_witness :
    (0 : ℕ) + 0 ≤ 0 ∧
    (1 ≤ ((0 : ℕ) : ℤ) - ((0 : ℕ) : ℤ) - ((0 : ℕ) : ℤ) + 1 ∧
     0 < angleOverTwoPi 0 0 0 ∧ angleOverTwoPi 0 0 0 ≤ 1 / 2 ∧
     angleIsMultipleOfTwoPi 0 0 0 = false ∧
     PhiMultiply [] [] [] = PhiMultiplyAll [] [] []) :=
  ⟨by decide, claim_C9_guard_always_true [] [] [] 0 0 0 (by decide)⟩

end GroverGaps
